import Mathlib

/-!
Verification of the single-endpoint JSON-relay service (`main.py`).

Strings are modelled as `List Char`.  Python's `str.replace`,
`str.strip`, `str.find` and slicing are embedded as executable Lean
functions, and `extract_json_text` / the `/process` handler are
translated from the source.  The outbound HTTP call (`requests.post`)
and the JSON decoder of the standard library (`json.loads`) are external
collaborators and enter the model as oracles: an `Upstream` outcome and
a `loads` function parameter.
-/

/-- Left brace character, written by code point to keep sources plain. -/
def lbrace : Char := Char.ofNat 123

/-- Right brace character. -/
def rbrace : Char := Char.ofNat 125

/-- Single-quote character. -/
def sqch : Char := Char.ofNat 39

/-- Double-quote character. -/
def dqch : Char := '"'

/-- The whitespace set of Python's `str.strip()` (ASCII part; the inputs
of this development contain no other whitespace). -/
def isPyWs (c : Char) : Bool :=
  c = ' ' || c = '\t' || c = '\n' || c = '\r' || c = Char.ofNat 11 || c = Char.ofNat 12

/-- `leadsWith pat s` holds when `pat` is an initial run of `s`
(the check Python's `replace` performs at each position). -/
def leadsWith : List Char → List Char → Bool
  | [], _ => true
  | _ :: _, [] => false
  | p :: ps, c :: cs => if p = c then leadsWith ps cs else false

/-- `containsSub pat s`: some suffix of `s` starts with `pat`,
i.e. `pat` occurs in `s` as a contiguous substring. -/
def containsSub (pat : List Char) : List Char → Bool
  | [] => leadsWith pat []
  | c :: cs => leadsWith pat (c :: cs) || containsSub pat cs

/-- Fuel-driven core of Python's `str.replace`: leftmost,
non-overlapping occurrences of `pat` become `rep`.  One unit of fuel is
spent per scanning step, and every step with a non-empty pattern
consumes at least one input character, so `s.length` fuel is exact. -/
def pyReplaceF : Nat → List Char → List Char → List Char → List Char
  | 0, _, _, s => s
  | _ + 1, _, _, [] => []
  | fuel + 1, pat, rep, c :: cs =>
    if leadsWith pat (c :: cs) then
      rep ++ pyReplaceF fuel pat rep (List.drop pat.length (c :: cs))
    else
      c :: pyReplaceF fuel pat rep cs

/-- Python's `s.replace(pat, rep)` for a non-empty `pat`. -/
def pyReplace (pat rep s : List Char) : List Char :=
  pyReplaceF s.length pat rep s

/-- Drop the longest run of `p`-satisfying characters from the right end. -/
def dropRightWhile (p : Char → Bool) : List Char → List Char
  | [] => []
  | c :: cs =>
    let r := dropRightWhile p cs
    if r = [] ∧ p c then [] else c :: r

/-- Python's `str.strip()`: remove surrounding whitespace. -/
def pyStrip (s : List Char) : List Char :=
  dropRightWhile isPyWs (List.dropWhile isPyWs s)

/-- Python's `text.find("{")`: index of the first left brace, if any. -/
def findBrace : List Char → Option Nat
  | [] => none
  | c :: cs =>
    if c = lbrace then some 0 else Option.map (fun n => n + 1) (findBrace cs)

/-- Contribution of one character to the running brace count. -/
def braceVal (c : Char) : Int :=
  if c = lbrace then 1 else if c = rbrace then -1 else 0

/-- Net brace count of a string (sum of `braceVal`). -/
def braceDelta : List Char → Int
  | [] => 0
  | c :: cs => braceVal c + braceDelta cs

/-- The `for i in range(start, len(text))` loop of `extract_json_text`:
starting from count `k`, return the length of the shortest prefix that
ends at a `}` bringing the running count to zero, or `none` when the
braces never balance. -/
def braceScan : List Char → Int → Option Nat
  | [], _ => none
  | c :: cs, k =>
    if c = rbrace ∧ k + braceVal c = 0 then some 1
    else Option.map (fun n => n + 1) (braceScan cs (k + braceVal c))

/-- `"```json"` as a character list. -/
def fenceJsonTok : List Char := "```json".data

/-- `"```"` as a character list. -/
def fenceTok : List Char := "```".data

/-- `"None"` as a character list. -/
def noneTok : List Char := "None".data

/-- `"null"` as a character list. -/
def nullTok : List Char := "null".data

/-- Lines 46 and 49 of `main.py`: strip markdown fences, trim, then the
blind `None -> null` and single-quote -> double-quote substitutions. -/
def processText (t : List Char) : List Char :=
  pyReplace [sqch] [dqch]
    (pyReplace noneTok nullTok
      (pyStrip (pyReplace fenceTok [] (pyReplace fenceJsonTok [] t))))

/-- `extract_json_text` from `main.py` (lines 37-65).  `none` models the
`ValueError("Empty text from model.")` raised on empty input; otherwise
the function fence-strips, substitutes, and returns either the first
balanced brace block or the whole trimmed text. -/
def extract_json_text (t : List Char) : Option (List Char) :=
  if t = [] then none
  else
    let u := processText t
    match findBrace u with
    | none => some (pyStrip u)
    | some start =>
      match braceScan (List.drop start u) 0 with
      | some n => some (pyStrip (List.take n (List.drop start u)))
      | none => some (pyStrip u)

/-- Digit character for one decimal digit (`n % 10` guard keeps totality). -/
def digitChar : Nat → Char
  | 0 => '0'
  | 1 => '1'
  | 2 => '2'
  | 3 => '3'
  | 4 => '4'
  | 5 => '5'
  | 6 => '6'
  | 7 => '7'
  | 8 => '8'
  | 9 => '9'
  | _ + 10 => '0'

/-- Accumulator-style decimal rendering of a natural number. -/
def natDigitsAux : Nat → Nat → List Char → List Char
  | 0, _, acc => acc
  | fuel + 1, n, acc =>
    if n < 10 then digitChar n :: acc
    else natDigitsAux fuel (n / 10) (digitChar (n % 10) :: acc)

/-- Decimal rendering of a natural number. -/
def natDigits (n : Nat) : List Char := natDigitsAux (n + 1) n []

/-- Decimal rendering of an integer (JSON number syntax). -/
def serInt (n : Int) : List Char :=
  if n < 0 then '-' :: natDigits n.natAbs else natDigits n.toNat

mutual
/-- Strict JSON values.  String payloads are raw character lists; the
serializer below emits them without escaping, so validity hypotheses
restrict them where a claim needs strict JSON. -/
inductive JVal where
  | null : JVal
  | bool (b : Bool) : JVal
  | num (n : Int) : JVal
  | str (s : List Char) : JVal
  | arr (xs : JList) : JVal
  | obj (kvs : JKVs) : JVal

/-- A list of JSON values (array elements). -/
inductive JList where
  | nil : JList
  | cons (hd : JVal) (tl : JList) : JList

/-- A list of key/value members of a JSON object. -/
inductive JKVs where
  | nil : JKVs
  | cons (key : List Char) (val : JVal) (tl : JKVs) : JKVs
end

/-- An unescaped JSON string literal. -/
def strLit (s : List Char) : List Char := dqch :: s ++ [dqch]

mutual
/-- Serialize a JSON value in the `", "`-separated, `": "`-delimited
style (the shape of the strings appearing in the specification). -/
def ser : JVal → List Char
  | .null => nullTok
  | .bool true => "true".data
  | .bool false => "false".data
  | .num n => serInt n
  | .str s => strLit s
  | .arr xs => '[' :: serList xs ++ [']']
  | .obj kvs => lbrace :: serKVs kvs ++ [rbrace]

/-- Serialize array elements (first element, no separator). -/
def serList : JList → List Char
  | .nil => []
  | .cons h t => ser h ++ serListT t

/-- Serialize array elements after the first (each with `", "`). -/
def serListT : JList → List Char
  | .nil => []
  | .cons h t => ',' :: ' ' :: (ser h ++ serListT t)

/-- Serialize object members (first member, no separator). -/
def serKVs : JKVs → List Char
  | .nil => []
  | .cons key v t => strLit key ++ ':' :: ' ' :: (ser v ++ serKVsT t)

/-- Serialize object members after the first (each with `", "`). -/
def serKVsT : JKVs → List Char
  | .nil => []
  | .cons key v t => ',' :: ' ' :: (strLit key ++ ':' :: ' ' :: (ser v ++ serKVsT t))
end

/-- A string payload free of brace characters (such payloads cannot
perturb the brace-balancing scan). -/
def jstrOk (s : List Char) : Bool :=
  s.all fun c => !(c = lbrace || c = rbrace)

mutual
/-- All string payloads (keys and values) of a JSON value are brace-free. -/
def jsonOk : JVal → Bool
  | .null => true
  | .bool _ => true
  | .num _ => true
  | .str s => jstrOk s
  | .arr xs => listOk xs
  | .obj kvs => kvsOk kvs

/-- `jsonOk` over array elements. -/
def listOk : JList → Bool
  | .nil => true
  | .cons h t => jsonOk h && listOk t

/-- `jsonOk` over object members. -/
def kvsOk : JKVs → Bool
  | .nil => true
  | .cons key v t => jstrOk key && jsonOk v && kvsOk t
end

/-- The three environment settings read at startup (lines 18-20 of
`main.py`); `none` models an unset variable. -/
structure Config where
  hf_api_url : Option (List Char)
  hf_api_token : Option (List Char)
  hf_model_name : Option (List Char)

/-- Python truthiness of an optional string: `None` and `""` are falsy. -/
def truthyOpt : Option (List Char) → Bool
  | none => false
  | some [] => false
  | some (_ :: _) => true

/-- The condition guarded by `ensure_env_vars` (lines 32-34): all three
settings set and non-empty. -/
def envOk (c : Config) : Bool :=
  truthyOpt c.hf_api_url && truthyOpt c.hf_api_token && truthyOpt c.hf_model_name

/-- Outcome of the outbound call (`requests.post` + `raise_for_status`
+ response-shape navigation), supplied as an oracle:
a transport-level failure with its message, a reply whose shape lacks
`choices[0].message.content`, or the reply content itself. -/
inductive Upstream where
  | transportError (msg : List Char) : Upstream
  | badShape : Upstream
  | content (raw : List Char) : Upstream
deriving DecidableEq

/-- Result of one `/process` request: a JSON body with status 200, an
`HTTPException` with status and detail, or an exception that escapes the
handler (surfaced by the framework as a generic 500 internal error). -/
inductive ProcResult (J : Type) where
  | ok (body : J) : ProcResult J
  | httpError (status : Nat) (detail : List Char) : ProcResult J
  | unhandled (msg : List Char) : ProcResult J
deriving DecidableEq

/-- Detail of the configuration error (line 34). -/
def envErrMsg : List Char :=
  "HF_API_URL, HF_API_TOKEN, and HF_MODEL_NAME environment variables must be set.".data

/-- Detail of the empty-text validation error (line 82). -/
def missingTextMsg : List Char :=
  "Missing \"text\" field in request body.".data

/-- Detail head of the transport error (line 103). -/
def transportMsgHead : List Char :=
  "HuggingFace request failed: ".data

/-- Detail of the response-shape error (line 110). -/
def shapeErrMsg : List Char :=
  "Failed to parse response from HuggingFace Chat API.".data

/-- Detail head of the repair-parse error (line 117). -/
def parseFailHead : List Char :=
  "Failed to parse JSON from model output. Raw output: ".data

/-- Message of the `ValueError` raised for empty model text (line 43). -/
def emptyModelMsg : List Char :=
  "Empty text from model.".data

/-- The `POST /process` handler (lines 73-119 of `main.py`).  `loads`
is the oracle for `json.loads` (returning `none` exactly when the
library would raise `json.JSONDecodeError`), and `up` the oracle for
the outbound call.  Order of checks follows the source: configuration,
then input presence, then the outbound call, then shape navigation,
then repair and parse.  The `ValueError` of `extract_json_text` is not
caught by the `except json.JSONDecodeError` clause, so it escapes as
`unhandled`. -/
def process {J : Type} (loads : List Char → Option J) (cfg : Config)
    (text : List Char) (up : Upstream) : ProcResult J :=
  if envOk cfg = false then .httpError 500 envErrMsg
  else if text = [] then .httpError 400 missingTextMsg
  else
    match up with
    | .transportError msg => .httpError 502 (transportMsgHead ++ msg)
    | .badShape => .httpError 502 shapeErrMsg
    | .content c =>
      let raw := pyStrip c
      match extract_json_text raw with
      | none => .unhandled emptyModelMsg
      | some candidate =>
        match loads candidate with
        | some j => .ok j
        | none => .httpError 502 (parseFailHead ++ raw)

/-- The raw model output of the fenced-dict example:
"```json\n" followed by the Python-style dict
`\x7b'name': 'Ann', 'email': None, 'age': 30, 'gender': 'female'\x7d`
followed by "\n```" (single quotes spliced as `sqch`). -/
def c5raw : List Char :=
  "```json\n\x7b".data ++ [sqch] ++ "name".data ++ [sqch] ++ ": ".data
    ++ [sqch] ++ "Ann".data ++ [sqch] ++ ", ".data
    ++ [sqch] ++ "email".data ++ [sqch] ++ ": None, ".data
    ++ [sqch] ++ "age".data ++ [sqch] ++ ": 30, ".data
    ++ [sqch] ++ "gender".data ++ [sqch] ++ ": ".data
    ++ [sqch] ++ "female".data ++ [sqch] ++ "\x7d\n```".data

/-- The expected repaired output of the fenced-dict example. -/
def c5out : List Char :=
  "\x7b\"name\": \"Ann\", \"email\": null, \"age\": 30, \"gender\": \"female\"\x7d".data

/-- The JSON object whose serialization is `c5out` (evidence that the
repaired text parses as strict JSON). -/
def c5obj : JVal :=
  .obj (.cons "name".data (.str "Ann".data)
    (.cons "email".data .null
      (.cons "age".data (.num 30)
        (.cons "gender".data (.str "female".data) .nil))))

/-- A complete configuration (all three settings non-empty). -/
def cfgGood : Config :=
  { hf_api_url := some "u".data
    hf_api_token := some "t".data
    hf_model_name := some "m".data }

/-- A configuration with the API URL unset. -/
def cfgBad : Config :=
  { hf_api_url := none
    hf_api_token := some "t".data
    hf_model_name := some "m".data }

theorem leadsWith_nil_right {pat : List Char} (h : leadsWith pat [] = true) : pat = [] := by
  cases pat with
  | nil => rfl
  | cons p ps => simp [leadsWith] at h

theorem containsSub_nil_pat (s : List Char) : containsSub [] s = true := by
  cases s with
  | nil => rfl
  | cons c cs => simp [containsSub, leadsWith]

theorem containsSub_cons_false {pat : List Char} {c : Char} {cs : List Char}
    (h : containsSub pat (c :: cs) = false) :
    leadsWith pat (c :: cs) = false ∧ containsSub pat cs = false := by
  simpa [containsSub] using h

theorem pyReplaceF_id {pat rep : List Char} :
    ∀ (s : List Char) (fuel : Nat), containsSub pat s = false → s.length ≤ fuel →
      pyReplaceF fuel pat rep s = s
  | [], 0, _, _ => rfl
  | [], _ + 1, _, _ => rfl
  | c :: cs, fuel + 1, h, hf => by
    obtain ⟨h1, h2⟩ := containsSub_cons_false h
    simp only [pyReplaceF, h1, Bool.false_eq_true, if_false]
    have : cs.length ≤ fuel := by simpa using hf
    rw [pyReplaceF_id cs fuel h2 this]

theorem pyReplace_id {pat rep s : List Char} (h : containsSub pat s = false) :
    pyReplace pat rep s = s :=
  pyReplaceF_id s s.length h (Nat.le_refl _)

theorem mem_pyReplaceF {pat rep : List Char} {x : Char} :
    ∀ (fuel : Nat) (s : List Char), x ∈ pyReplaceF fuel pat rep s → x ∈ rep ∨ x ∈ s
  | 0, s, h => Or.inr h
  | _ + 1, [], h => by simp [pyReplaceF] at h
  | fuel + 1, c :: cs, h => by
    cases hl : leadsWith pat (c :: cs) with
    | true =>
      simp only [pyReplaceF, hl, if_true, List.mem_append] at h
      rcases h with h | h
      · exact Or.inl h
      · rcases mem_pyReplaceF fuel _ h with h | h
        · exact Or.inl h
        · exact Or.inr (List.drop_subset _ _ h)
    | false =>
      simp only [pyReplaceF, hl, Bool.false_eq_true, if_false, List.mem_cons] at h
      rcases h with h | h
      · exact Or.inr (by simp [h])
      · rcases mem_pyReplaceF fuel cs h with h | h
        · exact Or.inl h
        · exact Or.inr (List.mem_cons_of_mem _ h)

theorem mem_pyReplace {pat rep s : List Char} {x : Char}
    (h : x ∈ pyReplace pat rep s) : x ∈ rep ∨ x ∈ s :=
  mem_pyReplaceF s.length s h

theorem mem_dropWhile {p : Char → Bool} {x : Char} :
    ∀ {s : List Char}, x ∈ List.dropWhile p s → x ∈ s
  | [], h => h
  | c :: cs, h => by
    by_cases hc : p c = true
    · simp only [List.dropWhile, hc] at h
      exact List.mem_cons_of_mem _ (mem_dropWhile h)
    · simp only [List.dropWhile, Bool.not_eq_true] at hc
      simp only [List.dropWhile, hc] at h
      exact h

theorem mem_dropRightWhile {p : Char → Bool} {x : Char} :
    ∀ {s : List Char}, x ∈ dropRightWhile p s → x ∈ s
  | [], h => h
  | c :: cs, h => by
    simp only [dropRightWhile] at h
    split at h
    · exact absurd h (List.not_mem_nil x)
    · rcases List.mem_cons.mp h with h | h
      · simp [h]
      · exact List.mem_cons_of_mem _ (mem_dropRightWhile h)

theorem mem_pyStrip {x : Char} {s : List Char} (h : x ∈ pyStrip s) : x ∈ s :=
  mem_dropWhile (mem_dropRightWhile h)

theorem dropWhile_cons_false {p : Char → Bool} {c : Char} (cs : List Char)
    (h : p c = false) : List.dropWhile p (c :: cs) = c :: cs := by
  simp [List.dropWhile, h]

theorem dropRightWhile_of_getLast {p : Char → Bool} {d : Char} :
    ∀ {s : List Char}, s.getLast? = some d → p d = false → dropRightWhile p s = s
  | [], h, _ => by simp at h
  | [c], h, hp => by
    have : c = d := by simpa using h
    subst this
    simp [dropRightWhile, hp]
  | c :: c2 :: cs, h, hp => by
    have h2 : (c2 :: cs).getLast? = some d := by
      simpa [List.getLast?_cons_cons] using h
    have ih := dropRightWhile_of_getLast h2 hp
    have step : dropRightWhile p (c :: c2 :: cs) =
        if dropRightWhile p (c2 :: cs) = [] ∧ p c = true then []
        else c :: dropRightWhile p (c2 :: cs) := rfl
    rw [step, ih, if_neg (by simp)]

theorem pyStrip_block {b : List Char} (h1 : b.head? = some lbrace)
    (h2 : b.getLast? = some rbrace) : pyStrip b = b := by
  match b, h1 with
  | c :: t, h1 =>
    have hc : c = lbrace := by simpa using h1
    unfold pyStrip
    rw [dropWhile_cons_false t (by rw [hc]; decide)]
    exact dropRightWhile_of_getLast h2 (by decide)

theorem dropWhile_idem (p : Char → Bool) :
    ∀ s : List Char, List.dropWhile p (List.dropWhile p s) = List.dropWhile p s
  | [] => rfl
  | c :: cs => by
    cases hc : p c with
    | true => simp only [List.dropWhile, hc]; exact dropWhile_idem p cs
    | false => simp [List.dropWhile, hc]

theorem dropRightWhile_idem (p : Char → Bool) :
    ∀ s : List Char, dropRightWhile p (dropRightWhile p s) = dropRightWhile p s
  | [] => rfl
  | c :: cs => by
    simp only [dropRightWhile]
    split
    · rfl
    · rename_i hcond
      simp only [dropRightWhile, dropRightWhile_idem p cs]
      rw [if_neg hcond]

theorem dropWhile_length_le (p : Char → Bool) :
    ∀ s : List Char, (List.dropWhile p s).length ≤ s.length
  | [] => Nat.le_refl _
  | c :: cs => by
    cases hc : p c with
    | true =>
      simp only [List.dropWhile, hc]
      exact Nat.le_succ_of_le (dropWhile_length_le p cs)
    | false => simp [List.dropWhile, hc]

theorem head_false_of_dropWhile_self {p : Char → Bool} {c : Char} {cs : List Char}
    (h : List.dropWhile p (c :: cs) = c :: cs) : p c = false := by
  cases hc : p c with
  | false => rfl
  | true =>
    exfalso
    simp only [List.dropWhile, hc] at h
    have := dropWhile_length_le p cs
    rw [h] at this
    simp at this

theorem dropWhile_dropRightWhile {p : Char → Bool} {t : List Char}
    (h : List.dropWhile p t = t) :
    List.dropWhile p (dropRightWhile p t) = dropRightWhile p t := by
  cases t with
  | nil => rfl
  | cons c cs =>
    have hc : p c = false := head_false_of_dropWhile_self h
    simp only [dropRightWhile]
    rw [if_neg (by simp [hc])]
    exact dropWhile_cons_false _ hc

theorem pyStrip_idem (s : List Char) : pyStrip (pyStrip s) = pyStrip s := by
  unfold pyStrip
  rw [dropWhile_dropRightWhile (dropWhile_idem isPyWs s), dropRightWhile_idem]

theorem leadsWith_cons_self {r cs : List Char} {c : Char}
    (h : leadsWith r cs = true) : leadsWith (c :: r) (c :: cs) = true := by
  simp [leadsWith, h]

theorem leadsWith_trans :
    ∀ {a b c : List Char}, leadsWith a b = true → leadsWith b c = true →
      leadsWith a c = true
  | [], _, _, _, _ => rfl
  | _ :: _, [], _, h1, _ => by simp [leadsWith] at h1
  | _ :: _, _ :: _, [], _, h2 => by simp [leadsWith] at h2
  | a :: as, b :: bs, c :: cs, h1, h2 => by
    simp only [leadsWith] at h1 h2 ⊢
    split at h1
    · split at h2
      · rename_i hab hbc
        rw [if_pos (hab.trans hbc)]
        exact leadsWith_trans h1 h2
      · exact absurd h2 (by simp)
    · exact absurd h1 (by simp)

theorem leadsWith_dropRightWhile (p : Char → Bool) :
    ∀ s : List Char, leadsWith (dropRightWhile p s) s = true
  | [] => rfl
  | c :: cs => by
    have step : dropRightWhile p (c :: cs) =
        if dropRightWhile p cs = [] ∧ p c = true then []
        else c :: dropRightWhile p cs := rfl
    rw [step]
    split
    · rfl
    · exact leadsWith_cons_self (leadsWith_dropRightWhile p cs)

theorem containsSub_of_dropWhile {pat : List Char} (p : Char → Bool) :
    ∀ {s : List Char}, containsSub pat (List.dropWhile p s) = true →
      containsSub pat s = true
  | [], h => h
  | c :: cs, h => by
    cases hc : p c with
    | true =>
      simp only [List.dropWhile, hc] at h
      have := containsSub_of_dropWhile p h
      simp [containsSub, this]
    | false =>
      simpa [List.dropWhile, hc] using h

theorem containsSub_of_leadsWith {pat t s : List Char}
    (h1 : leadsWith pat t = true) (h2 : leadsWith t s = true) :
    containsSub pat s = true := by
  cases s with
  | nil =>
    simpa [containsSub] using leadsWith_trans h1 h2
  | cons c cs =>
    simp [containsSub, leadsWith_trans h1 h2]

theorem containsSub_of_dropRightWhile {pat : List Char} (p : Char → Bool) :
    ∀ {s : List Char}, containsSub pat (dropRightWhile p s) = true →
      containsSub pat s = true
  | [], h => h
  | c :: cs, h => by
    have step : dropRightWhile p (c :: cs) =
        if dropRightWhile p cs = [] ∧ p c = true then []
        else c :: dropRightWhile p cs := rfl
    rw [step] at h
    split at h
    · have hpat : pat = [] := leadsWith_nil_right (by simpa [containsSub] using h)
      rw [hpat]
      exact containsSub_nil_pat _
    · simp only [containsSub, Bool.or_eq_true] at h
      rcases h with h | h
      · have hlt : leadsWith (c :: dropRightWhile p cs) (c :: cs) = true :=
          leadsWith_cons_self (leadsWith_dropRightWhile p cs)
        simp only [containsSub, Bool.or_eq_true]
        exact Or.inl (leadsWith_trans h hlt)
      · simp only [containsSub, Bool.or_eq_true]
        exact Or.inr (containsSub_of_dropRightWhile p h)

theorem containsSub_of_pyStrip {pat s : List Char}
    (h : containsSub pat (pyStrip s) = true) : containsSub pat s = true :=
  containsSub_of_dropWhile isPyWs (containsSub_of_dropRightWhile isPyWs h)

theorem containsSub_pyStrip_false {pat s : List Char}
    (h : containsSub pat s = false) : containsSub pat (pyStrip s) = false := by
  cases hc : containsSub pat (pyStrip s) with
  | false => rfl
  | true => rw [containsSub_of_pyStrip hc] at h; exact h.symm ▸ rfl

theorem braceScan_cons_eq (c : Char) (cs : List Char) (k : Int) :
    braceScan (c :: cs) k =
      if c = rbrace ∧ k + braceVal c = 0 then some 1
      else Option.map (fun n => n + 1) (braceScan cs (k + braceVal c)) := rfl

theorem braceVal_zero {c : Char} (h1 : c ≠ lbrace) (h2 : c ≠ rbrace) :
    braceVal c = 0 := by
  simp [braceVal, h1, h2]

theorem braceScan_cons_nonbrace {c : Char} (cs : List Char) (k : Int)
    (h1 : c ≠ lbrace) (h2 : c ≠ rbrace) :
    braceScan (c :: cs) k = Option.map (fun n => n + 1) (braceScan cs k) := by
  rw [braceScan_cons_eq, braceVal_zero h1 h2, if_neg (by intro h; exact h2 h.1)]
  simp

theorem braceScan_append_nonbrace {t : List Char}
    (ht : ∀ c ∈ t, c ≠ lbrace ∧ c ≠ rbrace) :
    ∀ (cs : List Char) (k : Int),
      braceScan (t ++ cs) k = Option.map (fun n => n + t.length) (braceScan cs k) := by
  induction t with
  | nil => intro cs k; cases h : braceScan cs k <;> simp [h]
  | cons c t ih =>
    intro cs k
    have hc := ht c (by simp)
    have hrest : ∀ x ∈ t, x ≠ lbrace ∧ x ≠ rbrace := fun x hx => ht x (by simp [hx])
    rw [List.cons_append, braceScan_cons_nonbrace _ k hc.1 hc.2, ih hrest cs k]
    cases h : braceScan cs k <;> simp [h] <;> omega

theorem braceScan_cons_lbrace (cs : List Char) (k : Int) :
    braceScan (lbrace :: cs) k = Option.map (fun n => n + 1) (braceScan cs (k + 1)) := by
  rw [braceScan_cons_eq, if_neg (by intro h; exact absurd h.1 (by decide))]
  norm_num [braceVal]

theorem braceScan_cons_rbrace (cs : List Char) (k : Int) (h : k ≠ 1) :
    braceScan (rbrace :: cs) k = Option.map (fun n => n + 1) (braceScan cs (k - 1)) := by
  rw [braceScan_cons_eq,
    if_neg (by
      intro hc
      have h2 := hc.2
      rw [show braceVal rbrace = -1 by decide] at h2
      omega)]
  rw [show braceVal rbrace = -1 by decide, show k + -1 = k - 1 by omega]

theorem braceScan_some :
    ∀ (cs : List Char) (k : Int) (n : Nat), braceScan cs k = some n →
      1 ≤ n ∧ n ≤ cs.length ∧ k + braceDelta (List.take n cs) = 0
  | [], k, n, h => by simp [braceScan] at h
  | c :: cs, k, n, h => by
    rw [braceScan_cons_eq] at h
    split at h
    · rename_i hc
      have hn : n = 1 := by simpa using h.symm
      subst hn
      refine ⟨Nat.le_refl _, by simp, ?_⟩
      simp only [List.take, braceDelta]
      omega
    · rcases Option.map_eq_some'.mp h with ⟨m, hm, rfl⟩
      obtain ⟨hm1, hm2, hm3⟩ := braceScan_some cs (k + braceVal c) m hm
      refine ⟨by omega, by simp; omega, ?_⟩
      simp only [List.take, braceDelta]
      omega

theorem braceScan_balanced :
    ∀ (cs : List Char), cs ≠ [] → ∀ (k : Int) (rest : List Char),
      cs.getLast? = some rbrace →
      k + braceDelta cs = 0 →
      (∀ m, m < cs.length → 0 < m → k + braceDelta (List.take m cs) ≠ 0) →
      braceScan (cs ++ rest) k = some cs.length
  | [], h, _, _, _, _, _ => absurd rfl h
  | [c], _, k, rest, hlast, hdelta, _ => by
    have hc : c = rbrace := by simpa using hlast
    subst hc
    simp only [braceDelta] at hdelta
    rw [List.cons_append, List.nil_append, braceScan_cons_eq,
      if_pos ⟨rfl, by omega⟩]
    rfl
  | c :: c2 :: cs, _, k, rest, hlast, hdelta, hin => by
    have hlast2 : (c2 :: cs).getLast? = some rbrace := by
      simpa [List.getLast?_cons_cons] using hlast
    have hdelta2 : (k + braceVal c) + braceDelta (c2 :: cs) = 0 := by
      simp only [braceDelta] at hdelta ⊢
      omega
    have hin2 : ∀ m, m < (c2 :: cs).length → 0 < m →
        (k + braceVal c) + braceDelta (List.take m (c2 :: cs)) ≠ 0 := by
      intro m hm hm0
      have := hin (m + 1) (by simpa using Nat.succ_lt_succ hm) (Nat.succ_pos m)
      simp only [List.take, braceDelta] at this ⊢
      omega
    have ih := braceScan_balanced (c2 :: cs) (by simp) (k + braceVal c) rest
      hlast2 hdelta2 hin2
    have hnotret : ¬(c = rbrace ∧ k + braceVal c = 0) := by
      intro hc
      have := hin 1 (by simp) (by omega)
      simp only [List.take, braceDelta] at this
      omega
    rw [List.cons_append, braceScan_cons_eq, if_neg hnotret, ih]
    simp

theorem findBrace_append {pre : List Char} (t : List Char) (hpre : lbrace ∉ pre) :
    findBrace (pre ++ lbrace :: t) = some pre.length := by
  induction pre with
  | nil => simp [findBrace]
  | cons c cs ih =>
    have hc : c ≠ lbrace := by intro h; exact hpre (by simp [h])
    have hcs : lbrace ∉ cs := fun h => hpre (List.mem_cons_of_mem _ h)
    rw [List.cons_append]
    simp only [findBrace, if_neg hc, ih hcs]
    simp

theorem findBrace_none : ∀ {u : List Char}, lbrace ∉ u → findBrace u = none
  | [], _ => rfl
  | c :: cs, h => by
    have hc : c ≠ lbrace := by intro hh; exact h (by simp [hh])
    have hcs : lbrace ∉ cs := fun hh => h (List.mem_cons_of_mem _ hh)
    simp [findBrace, if_neg hc, findBrace_none hcs]

theorem digitChar_nonbrace : ∀ d : Nat, digitChar d ≠ lbrace ∧ digitChar d ≠ rbrace
  | 0 => by decide
  | 1 => by decide
  | 2 => by decide
  | 3 => by decide
  | 4 => by decide
  | 5 => by decide
  | 6 => by decide
  | 7 => by decide
  | 8 => by decide
  | 9 => by decide
  | _ + 10 => show '0' ≠ lbrace ∧ '0' ≠ rbrace by decide

theorem mem_natDigitsAux {x : Char} :
    ∀ (fuel n : Nat) (acc : List Char), x ∈ natDigitsAux fuel n acc →
      x ∈ acc ∨ ∃ d, x = digitChar d
  | 0, _, _, h => Or.inl h
  | fuel + 1, n, acc, h => by
    by_cases hn : n < 10
    · simp only [natDigitsAux, hn, if_true, List.mem_cons] at h
      rcases h with h | h
      · exact Or.inr ⟨n, h⟩
      · exact Or.inl h
    · simp only [natDigitsAux, hn, if_false] at h
      rcases mem_natDigitsAux fuel (n / 10) _ h with h | h
      · rcases List.mem_cons.mp h with h | h
        · exact Or.inr ⟨n % 10, h⟩
        · exact Or.inl h
      · exact Or.inr h

theorem serInt_nonbrace (n : Int) : ∀ x ∈ serInt n, x ≠ lbrace ∧ x ≠ rbrace := by
  intro x hx
  have digits : ∀ m : Nat, x ∈ natDigits m → x ≠ lbrace ∧ x ≠ rbrace := by
    intro m hm
    rcases mem_natDigitsAux (m + 1) m [] hm with h | ⟨d, rfl⟩
    · exact absurd h (List.not_mem_nil x)
    · exact digitChar_nonbrace d
  unfold serInt at hx
  split at hx
  · rcases List.mem_cons.mp hx with h | h
    · subst h; exact by decide
    · exact digits _ h
  · exact digits _ hx

theorem strLit_nonbrace {s : List Char} (h : jstrOk s = true) :
    ∀ x ∈ strLit s, x ≠ lbrace ∧ x ≠ rbrace := by
  intro x hx
  have hmem : ∀ c ∈ s, c ≠ lbrace ∧ c ≠ rbrace := by
    intro c hc
    have := (List.all_eq_true.mp h) c hc
    constructor <;> intro heq <;> subst heq <;> simp at this
  rcases List.mem_cons.mp hx with rfl | hx2
  · exact by decide
  rcases List.mem_append.mp hx2 with hx3 | hx3
  · exact hmem x hx3
  · have : x = dqch := List.mem_singleton.mp hx3
    subst this; exact by decide

mutual

theorem scan_ser :
    ∀ (j : JVal), jsonOk j = true → ∀ (k : Int) (rest : List Char), 1 ≤ k →
      braceScan (ser j ++ rest) k =
        Option.map (fun n => n + (ser j).length) (braceScan rest k)
  | .null, _, k, rest, _ => by
    rw [show ser JVal.null = nullTok from rfl]
    exact braceScan_append_nonbrace (by decide) rest k
  | .bool true, _, k, rest, _ => by
    rw [show ser (JVal.bool true) = "true".data from rfl]
    exact braceScan_append_nonbrace (by decide) rest k
  | .bool false, _, k, rest, _ => by
    rw [show ser (JVal.bool false) = "false".data from rfl]
    exact braceScan_append_nonbrace (by decide) rest k
  | .num n, _, k, rest, _ => by
    rw [show ser (JVal.num n) = serInt n from rfl]
    exact braceScan_append_nonbrace (serInt_nonbrace n) rest k
  | .str s, h, k, rest, _ => by
    have hs : jstrOk s = true := by simpa [jsonOk] using h
    rw [show ser (JVal.str s) = strLit s from rfl]
    exact braceScan_append_nonbrace (strLit_nonbrace hs) rest k
  | .arr xs, h, k, rest, hk => by
    have hxs : listOk xs = true := by simpa [jsonOk] using h
    have e1 : ser (JVal.arr xs) ++ rest = '[' :: (serList xs ++ (']' :: rest)) := by
      simp [ser]
    rw [e1, braceScan_cons_nonbrace _ k (by decide) (by decide),
      scan_serList xs hxs k (']' :: rest) hk,
      braceScan_cons_nonbrace _ k (by decide) (by decide)]
    cases hb : braceScan rest k <;> simp [hb, ser, List.length_append] <;> omega
  | .obj kvs, h, k, rest, hk => by
    have hkvs : kvsOk kvs = true := by simpa [jsonOk] using h
    have e1 : ser (JVal.obj kvs) ++ rest = lbrace :: (serKVs kvs ++ (rbrace :: rest)) := by
      simp [ser]
    rw [e1, braceScan_cons_lbrace,
      scan_serKVs kvs hkvs (k + 1) (rbrace :: rest) (by omega),
      braceScan_cons_rbrace rest (k + 1) (by omega),
      show k + 1 - 1 = k by omega]
    cases hb : braceScan rest k <;> simp [hb, ser, List.length_append] <;> omega

theorem scan_serList :
    ∀ (xs : JList), listOk xs = true → ∀ (k : Int) (rest : List Char), 1 ≤ k →
      braceScan (serList xs ++ rest) k =
        Option.map (fun n => n + (serList xs).length) (braceScan rest k)
  | .nil, _, k, rest, _ => by
    cases hb : braceScan rest k <;> simp [serList, hb]
  | .cons hd tl, h, k, rest, hk => by
    have h1 : jsonOk hd = true ∧ listOk tl = true := by
      simpa [listOk, Bool.and_eq_true] using h
    have e1 : serList (JList.cons hd tl) ++ rest = ser hd ++ (serListT tl ++ rest) := by
      simp [serList, List.append_assoc]
    rw [e1, scan_ser hd h1.1 k _ hk, scan_serListT tl h1.2 k rest hk]
    cases hb : braceScan rest k <;> simp [hb, serList, List.length_append] <;> omega

theorem scan_serListT :
    ∀ (xs : JList), listOk xs = true → ∀ (k : Int) (rest : List Char), 1 ≤ k →
      braceScan (serListT xs ++ rest) k =
        Option.map (fun n => n + (serListT xs).length) (braceScan rest k)
  | .nil, _, k, rest, _ => by
    cases hb : braceScan rest k <;> simp [serListT, hb]
  | .cons hd tl, h, k, rest, hk => by
    have h1 : jsonOk hd = true ∧ listOk tl = true := by
      simpa [listOk, Bool.and_eq_true] using h
    have e1 : serListT (JList.cons hd tl) ++ rest =
        ',' :: ' ' :: (ser hd ++ (serListT tl ++ rest)) := by
      simp [serListT, List.append_assoc]
    rw [e1, braceScan_cons_nonbrace _ k (by decide) (by decide),
      braceScan_cons_nonbrace _ k (by decide) (by decide),
      scan_ser hd h1.1 k _ hk, scan_serListT tl h1.2 k rest hk]
    cases hb : braceScan rest k <;> simp [hb, serListT, List.length_append] <;> omega

theorem scan_serKVs :
    ∀ (kvs : JKVs), kvsOk kvs = true → ∀ (k : Int) (rest : List Char), 1 ≤ k →
      braceScan (serKVs kvs ++ rest) k =
        Option.map (fun n => n + (serKVs kvs).length) (braceScan rest k)
  | .nil, _, k, rest, _ => by
    cases hb : braceScan rest k <;> simp [serKVs, hb]
  | .cons key v tl, h, k, rest, hk => by
    have h1 : (jstrOk key = true ∧ jsonOk v = true) ∧ kvsOk tl = true := by
      simpa [kvsOk, Bool.and_eq_true] using h
    have e1 : serKVs (JKVs.cons key v tl) ++ rest =
        strLit key ++ (':' :: ' ' :: (ser v ++ (serKVsT tl ++ rest))) := by
      simp [serKVs, List.append_assoc]
    rw [e1, braceScan_append_nonbrace (strLit_nonbrace h1.1.1) _ k,
      braceScan_cons_nonbrace _ k (by decide) (by decide),
      braceScan_cons_nonbrace _ k (by decide) (by decide),
      scan_ser v h1.1.2 k _ hk, scan_serKVsT tl h1.2 k rest hk]
    cases hb : braceScan rest k <;>
      simp [hb, serKVs, strLit, List.length_append] <;> omega

theorem scan_serKVsT :
    ∀ (kvs : JKVs), kvsOk kvs = true → ∀ (k : Int) (rest : List Char), 1 ≤ k →
      braceScan (serKVsT kvs ++ rest) k =
        Option.map (fun n => n + (serKVsT kvs).length) (braceScan rest k)
  | .nil, _, k, rest, _ => by
    cases hb : braceScan rest k <;> simp [serKVsT, hb]
  | .cons key v tl, h, k, rest, hk => by
    have h1 : (jstrOk key = true ∧ jsonOk v = true) ∧ kvsOk tl = true := by
      simpa [kvsOk, Bool.and_eq_true] using h
    have e1 : serKVsT (JKVs.cons key v tl) ++ rest =
        ',' :: ' ' :: (strLit key ++ (':' :: ' ' :: (ser v ++ (serKVsT tl ++ rest)))) := by
      simp [serKVsT, List.append_assoc]
    rw [e1, braceScan_cons_nonbrace _ k (by decide) (by decide),
      braceScan_cons_nonbrace _ k (by decide) (by decide),
      braceScan_append_nonbrace (strLit_nonbrace h1.1.1) _ k,
      braceScan_cons_nonbrace _ k (by decide) (by decide),
      braceScan_cons_nonbrace _ k (by decide) (by decide),
      scan_ser v h1.1.2 k _ hk, scan_serKVsT tl h1.2 k rest hk]
    cases hb : braceScan rest k <;>
      simp [hb, serKVsT, strLit, List.length_append] <;> omega

end

theorem extract_json_text_eq {s : List Char} (hs : s ≠ []) :
    extract_json_text s =
      match findBrace (processText s) with
      | none => some (pyStrip (processText s))
      | some start =>
        match braceScan (List.drop start (processText s)) 0 with
        | some n => some (pyStrip (List.take n (List.drop start (processText s))))
        | none => some (pyStrip (processText s)) := by
  unfold extract_json_text
  rw [if_neg hs]

theorem processText_eq_pyStrip {s : List Char}
    (hfj : containsSub fenceJsonTok s = false)
    (hf : containsSub fenceTok s = false)
    (hn : containsSub noneTok (pyStrip s) = false)
    (hq : containsSub [sqch] (pyStrip s) = false) :
    processText s = pyStrip s := by
  unfold processText
  rw [pyReplace_id hfj, pyReplace_id hf, pyReplace_id hn, pyReplace_id hq]

/-- C1, counterexample: with `HF_API_URL` unset and `text = ""`,
`/process` answers the 500 configuration error, not the 400 validation
error — the configuration check precedes input validation, so the
validation error is not independent of configuration. -/
theorem c1_counterexample :
    process (fun _ => (none : Option Unit)) cfgBad [] (Upstream.content "x".data) =
      ProcResult.httpError 500 envErrMsg ∧
    (ProcResult.httpError 500 envErrMsg : ProcResult Unit) ≠
      ProcResult.httpError 400 missingTextMsg := by
  constructor
  · decide
  · decide

/-- C1, amended: when all three environment settings are set and
non-empty, a request with empty `text` is answered by the 400-equivalent
validation error, independent of the network state (the outcome is the
same for every upstream oracle). -/
theorem c1_amended_empty_text {J : Type} (loads : List Char → Option J)
    (cfg : Config) (up : Upstream) (h : envOk cfg = true) :
    process loads cfg [] up = ProcResult.httpError 400 missingTextMsg := by
  simp [process, h]

/-- C1, witness: the amended statement at a concrete complete
configuration and a concrete upstream oracle. -/
theorem c1_amended_empty_text_witness :
    envOk cfgGood = true ∧
    process (fun _ => (none : Option Unit)) cfgGood [] (Upstream.content "x".data) =
      ProcResult.httpError 400 missingTextMsg :=
  ⟨by decide, c1_amended_empty_text (fun _ => (none : Option Unit)) cfgGood
    (Upstream.content "x".data) (by decide)⟩

/-- C7: when any of the three environment settings is unset or empty,
`/process` answers the 500-equivalent configuration error for every
request body, and the outcome does not depend on the upstream oracle —
the check happens before any outbound call is attempted. -/
theorem c7_missing_env_config_error {J : Type} (loads : List Char → Option J)
    (cfg : Config) (text : List Char) (up up' : Upstream)
    (h : envOk cfg = false) :
    process loads cfg text up = ProcResult.httpError 500 envErrMsg ∧
    process loads cfg text up = process loads cfg text up' := by
  constructor <;> simp [process, h]

/-- C7, witness: the configuration-error theorem at a concrete broken
configuration, for two different upstream outcomes. -/
theorem c7_missing_env_config_error_witness :
    envOk cfgBad = false ∧
    (process (fun _ => (none : Option Unit)) cfgBad "hi".data
        (Upstream.transportError "boom".data) =
      ProcResult.httpError 500 envErrMsg ∧
    process (fun _ => (none : Option Unit)) cfgBad "hi".data
        (Upstream.transportError "boom".data) =
      process (fun _ => (none : Option Unit)) cfgBad "hi".data
        (Upstream.content "x".data)) :=
  ⟨by decide, c7_missing_env_config_error (fun _ => (none : Option Unit)) cfgBad
    "hi".data (Upstream.transportError "boom".data) (Upstream.content "x".data)
    (by decide)⟩

/-- C8: whenever `json.loads` fails on the string returned by
`extract_json_text`, `/process` answers a 502-equivalent gateway error
whose detail is the fixed message followed by the raw (stripped) model
output — in particular the detail contains that raw output. -/
theorem c8_parse_failure_gateway_error {J : Type} (loads : List Char → Option J)
    (cfg : Config) (text c candidate : List Char)
    (henv : envOk cfg = true) (htext : text ≠ [])
    (hex : extract_json_text (pyStrip c) = some candidate)
    (hl : loads candidate = none) :
    process loads cfg text (Upstream.content c) =
      ProcResult.httpError 502 (parseFailHead ++ pyStrip c) ∧
    ∃ l r, parseFailHead ++ pyStrip c = l ++ (pyStrip c ++ r) := by
  constructor
  · simp only [process, henv, Bool.true_eq_false, if_false, if_neg htext, hex, hl]
  · exact ⟨parseFailHead, [], by simp⟩

/-- C8, witness: a model reply with no brace survives the repair pass
unchanged, a parser that rejects it produces the 502 gateway error with
the raw output in the detail. -/
theorem c8_parse_failure_gateway_error_witness :
    envOk cfgGood = true ∧
    extract_json_text (pyStrip "plain".data) = some "plain".data ∧
    process (fun _ => (none : Option Unit)) cfgGood "hi".data
        (Upstream.content "plain".data) =
      ProcResult.httpError 502 (parseFailHead ++ pyStrip "plain".data) ∧
    ∃ l r, parseFailHead ++ pyStrip "plain".data = l ++ (pyStrip "plain".data ++ r) :=
  ⟨by decide, by decide,
    c8_parse_failure_gateway_error (fun _ => (none : Option Unit)) cfgGood
      "hi".data "plain".data "plain".data (by decide) (by decide) (by decide) rfl⟩

/-- C9: a whitespace-only model reply strips to the empty string, the
`ValueError` raised by `extract_json_text` is not caught by the
`except json.JSONDecodeError` clause, and the request fails with an
uncategorized internal error rather than a categorized validation
error. -/
theorem c9_empty_model_text_unhandled :
    process (fun _ => (none : Option Unit)) cfgGood "hello".data
        (Upstream.content "  ".data) =
      ProcResult.unhandled emptyModelMsg := by
  decide

/-- C3, counterexample: on input `"abc {def"` the premise of the claim
holds (there is a `{`, and the running count never returns to zero), yet
`extract_json_text` returns the whole text `"abc {def"`, not the suffix
`"{def"` from the first `{` to the end. -/
theorem c3_counterexample :
    processText "abc \x7bdef".data = "abc \x7bdef".data ∧
    findBrace (processText "abc \x7bdef".data) = some 4 ∧
    braceScan (List.drop 4 (processText "abc \x7bdef".data)) 0 = none ∧
    List.drop 4 (processText "abc \x7bdef".data) = "\x7bdef".data ∧
    extract_json_text "abc \x7bdef".data = some ("abc \x7bdef".data) ∧
    ("abc \x7bdef".data : List Char) ≠ "\x7bdef".data := by
  refine ⟨by decide, by decide, by decide, by decide, by decide, by decide⟩

/-- C3, amended: when the processed text contains a `{` and the running
brace count of no nonempty prefix after the first `{` returns to zero,
`extract_json_text` returns the entire processed trimmed text (which
equals the suffix from the first `{` only when nothing precedes it). -/
theorem c3_amended_unbalanced_returns_all (s u : List Char) (start : Nat)
    (hu : u = processText s)
    (hfind : findBrace u = some start)
    (hnz : ∀ n, n ≤ (List.drop start u).length → 0 < n →
      braceDelta (List.take n (List.drop start u)) ≠ 0) :
    extract_json_text s = some (pyStrip u) := by
  have hne : s ≠ [] := by
    intro hnil
    subst hnil
    rw [show processText [] = [] from rfl] at hu
    subst hu
    simp [findBrace] at hfind
  subst hu
  have hscan : braceScan (List.drop start (processText s)) 0 = none := by
    cases hb : braceScan (List.drop start (processText s)) 0 with
    | none => rfl
    | some n =>
      obtain ⟨h1, h2, h3⟩ := braceScan_some _ _ _ hb
      exact absurd (by omega :
          braceDelta (List.take n (List.drop start (processText s))) = 0)
        (hnz n h2 h1)
  rw [extract_json_text_eq hne, hfind]
  simp only [hscan]

/-- C3, witness: the amended statement on the unbalanced input
`"q {w"`. -/
theorem c3_amended_unbalanced_returns_all_witness :
    ("q \x7bw".data : List Char) = processText "q \x7bw".data ∧
    findBrace (processText "q \x7bw".data) = some 2 ∧
    extract_json_text "q \x7bw".data = some (pyStrip ("q \x7bw".data)) :=
  ⟨by decide, by decide,
    c3_amended_unbalanced_returns_all "q \x7bw".data "q \x7bw".data 2
      (by decide) (by decide) (by decide)⟩

/-- C4, counterexample: the input `"None"` contains no `{`, yet the
result is `"null"`, not the trimmed input — the blind substitutions
apply even when the brace scan is skipped. -/
theorem c4_counterexample :
    extract_json_text "None".data = some ("null".data) ∧
    pyStrip "None".data = "None".data ∧
    ("null".data : List Char) ≠ "None".data := by
  refine ⟨by decide, by decide, by decide⟩

/-- C4, amended: an input without `{` skips the brace scan and yields
the fence-stripped, substituted text trimmed of surrounding whitespace;
when the input additionally contains none of the replaced substrings,
this is exactly the input trimmed but otherwise unchanged. -/
theorem c4_amended_no_brace (s : List Char) (hne : s ≠ []) (hnb : lbrace ∉ s) :
    extract_json_text s = some (pyStrip (processText s)) ∧
    (containsSub fenceJsonTok s = false → containsSub fenceTok s = false →
      containsSub noneTok s = false → containsSub [sqch] s = false →
      extract_json_text s = some (pyStrip s)) := by
  have hnbu : lbrace ∉ processText s := by
    intro hmem
    rcases mem_pyReplace hmem with h | h
    · exact absurd (List.mem_singleton.mp h) (by decide)
    rcases mem_pyReplace h with h | h
    · revert h
      decide
    have h2 := mem_pyStrip h
    rcases mem_pyReplace h2 with h3 | h3
    · exact absurd h3 (List.not_mem_nil _)
    rcases mem_pyReplace h3 with h4 | h4
    · exact absurd h4 (List.not_mem_nil _)
    exact hnb h4
  have hfind : findBrace (processText s) = none := findBrace_none hnbu
  have hmain : extract_json_text s = some (pyStrip (processText s)) := by
    rw [extract_json_text_eq hne, hfind]
  refine ⟨hmain, ?_⟩
  intro hfj hf hn hq
  have hpt : processText s = pyStrip s :=
    processText_eq_pyStrip hfj hf (containsSub_pyStrip_false hn)
      (containsSub_pyStrip_false hq)
  rw [hmain, hpt, pyStrip_idem]

/-- C4, witness: the amended statement on the brace-free input
`" no data "` (whitespace-padded, no substituted substrings). -/
theorem c4_amended_no_brace_witness :
    (" no data ".data : List Char) ≠ [] ∧
    lbrace ∉ (" no data ".data : List Char) ∧
    extract_json_text " no data ".data = some (pyStrip (processText " no data ".data)) ∧
    extract_json_text " no data ".data = some (pyStrip " no data ".data) := by
  refine ⟨by decide, by decide, ?_, ?_⟩
  · exact (c4_amended_no_brace " no data ".data (by decide) (by decide)).1
  · exact (c4_amended_no_brace " no data ".data (by decide) (by decide)).2
      (by decide) (by decide) (by decide) (by decide)

set_option maxRecDepth 5000 in
/-- C5: on the fenced Python-style dict for Ann, the repair heuristic
yields exactly the strict JSON object string, and that string is the
serialization of a JSON value (hence parses as JSON). -/
theorem c5_fenced_dict_repaired :
    extract_json_text c5raw = some c5out ∧ ser c5obj = c5out := by
  refine ⟨by decide, by decide⟩

/-- C10: the brace scan counts braces inside string literals: the strict
JSON object `\x7b"a": "\x7d"\x7d` (a `\x7d` inside a string value) is
truncated by `extract_json_text` to the strict prefix `\x7b"a": "\x7d`
ending at the embedded brace. -/
theorem c10_brace_in_string_truncates :
    ser (JVal.obj (JKVs.cons ['a'] (JVal.str [rbrace]) JKVs.nil)) =
      "\x7b\"a\": \"\x7d\"\x7d".data ∧
    extract_json_text "\x7b\"a\": \"\x7d\"\x7d".data = some ("\x7b\"a\": \"\x7d".data) ∧
    leadsWith "\x7b\"a\": \"\x7d".data "\x7b\"a\": \"\x7d\"\x7d".data = true ∧
    ("\x7b\"a\": \"\x7d".data : List Char).length <
      ("\x7b\"a\": \"\x7d\"\x7d".data : List Char).length := by
  refine ⟨by decide, by decide, by decide, by decide⟩

/-- C2, counterexample: `\x7b"x": "None"\x7d` is a strict JSON object
(the serialization of an object whose value is the string "None"), yet
the heuristic rewrites it to `\x7b"x": "null"\x7d` — a content change,
not merely surrounding whitespace. -/
theorem c2_counterexample :
    ser (JVal.obj (JKVs.cons ['x'] (JVal.str "None".data) JKVs.nil)) =
      "\x7b\"x\": \"None\"\x7d".data ∧
    extract_json_text "\x7b\"x\": \"None\"\x7d".data =
      some ("\x7b\"x\": \"null\"\x7d".data) ∧
    pyStrip "\x7b\"x\": \"null\"\x7d".data ≠ pyStrip "\x7b\"x\": \"None\"\x7d".data := by
  refine ⟨by decide, by decide, by decide⟩

/-- C2, amended: a string that is the serialization of a strict JSON
object, and that contains no fence marker, no `None` token, no single
quote, and no brace characters inside its string payloads, is returned
by `extract_json_text` unchanged. -/
theorem c2_amended_strict_json_id (kvs : JKVs) (s : List Char)
    (hser : s = ser (JVal.obj kvs))
    (hok : jsonOk (JVal.obj kvs) = true)
    (hfj : containsSub fenceJsonTok s = false)
    (hf : containsSub fenceTok s = false)
    (hn : containsSub noneTok s = false)
    (hq : containsSub [sqch] s = false) :
    extract_json_text s = some s := by
  have hshape : s = lbrace :: (serKVs kvs ++ [rbrace]) := by rw [hser]; rfl
  have hne : s ≠ [] := by rw [hshape]; simp
  have hhead : s.head? = some lbrace := by rw [hshape]; rfl
  have hlast : s.getLast? = some rbrace := by
    rw [hshape]
    show ((lbrace :: serKVs kvs) ++ [rbrace]).getLast? = some rbrace
    exact List.getLast?_concat _
  have hstrip : pyStrip s = s := pyStrip_block hhead hlast
  have hn2 : containsSub noneTok (pyStrip s) = false := by rw [hstrip]; exact hn
  have hq2 : containsSub [sqch] (pyStrip s) = false := by rw [hstrip]; exact hq
  have hpt : processText s = s := by
    rw [processText_eq_pyStrip hfj hf hn2 hq2, hstrip]
  have hkvs : kvsOk kvs = true := by simpa [jsonOk] using hok
  have hfind : findBrace s = some 0 := by rw [hshape]; simp [findBrace]
  have hscan : braceScan s 0 = some s.length := by
    rw [hshape, braceScan_cons_lbrace, show (0 : Int) + 1 = 1 from by omega,
      scan_serKVs kvs hkvs 1 [rbrace] (by omega),
      show braceScan [rbrace] (1 : Int) = some 1 from by decide]
    simp [List.length_append]
    omega
  rw [extract_json_text_eq hne, hpt, hfind]
  simp only [List.drop_zero, hscan, List.take_length, hstrip]

/-- C2, witness: the amended statement at the object `\x7b"a": 7\x7d`. -/
theorem c2_amended_strict_json_id_witness :
    jsonOk (JVal.obj (JKVs.cons ['a'] (JVal.num 7) JKVs.nil)) = true ∧
    extract_json_text (ser (JVal.obj (JKVs.cons ['a'] (JVal.num 7) JKVs.nil))) =
      some (ser (JVal.obj (JKVs.cons ['a'] (JVal.num 7) JKVs.nil))) :=
  ⟨by decide,
    c2_amended_strict_json_id (JKVs.cons ['a'] (JVal.num 7) JKVs.nil) _ rfl
      (by decide) (by decide) (by decide) (by decide) (by decide)⟩

/-- C6: when the processed text splits as a brace-free part, a first
balanced brace block, and a remainder containing a further balanced
block, `extract_json_text` returns exactly the first balanced block. -/
theorem c6_first_balanced_block (s pre b mid b2 suf2 : List Char)
    (hP : processText s = pre ++ b ++ (mid ++ b2 ++ suf2))
    (hpre : lbrace ∉ pre)
    (hhead : b.head? = some lbrace)
    (hlast : b.getLast? = some rbrace)
    (hdelta : braceDelta b = 0)
    (hin : ∀ m, m < b.length → 0 < m → braceDelta (List.take m b) ≠ 0)
    (hhead2 : b2.head? = some lbrace)
    (hlast2 : b2.getLast? = some rbrace)
    (hdelta2 : braceDelta b2 = 0) :
    extract_json_text s = some b := by
  have hb_ne : b ≠ [] := by intro h; rw [h] at hhead; simp at hhead
  have hne : s ≠ [] := by
    intro hnil
    subst hnil
    rw [show processText [] = [] from rfl] at hP
    have h1 := List.append_eq_nil.mp hP.symm
    exact hb_ne (List.append_eq_nil.mp h1.1).2
  cases b with
  | nil => exact absurd rfl hb_ne
  | cons c t =>
    have hc : c = lbrace := by simpa using hhead
    subst hc
    rw [extract_json_text_eq hne, hP,
      show pre ++ (lbrace :: t) ++ (mid ++ b2 ++ suf2) =
        pre ++ lbrace :: (t ++ (mid ++ b2 ++ suf2)) from by simp,
      findBrace_append _ hpre]
    have hscan : braceScan ((lbrace :: t) ++ (mid ++ b2 ++ suf2)) 0 =
        some (lbrace :: t).length := by
      apply braceScan_balanced _ (by simp) 0 _ hlast (by simp [hdelta])
      intro m h1 h2
      have := hin m h1 h2
      omega
    simp only [List.drop_left]
    rw [show lbrace :: (t ++ (mid ++ b2 ++ suf2)) =
      (lbrace :: t) ++ (mid ++ b2 ++ suf2) from rfl]
    simp only [hscan, List.take_left]
    rw [pyStrip_block hhead hlast]

set_option maxRecDepth 5000 in
/-- C6, witness: the worked example — `Sure! \x7b"name": "Bo"\x7d and
also \x7b"extra": 1\x7d` yields only the first block
`\x7b"name": "Bo"\x7d`. -/
theorem c6_first_balanced_block_witness :
    processText "Sure! \x7b\"name\": \"Bo\"\x7d and also \x7b\"extra\": 1\x7d".data =
      "Sure! ".data ++ "\x7b\"name\": \"Bo\"\x7d".data ++
        (" and also ".data ++ "\x7b\"extra\": 1\x7d".data ++ []) ∧
    extract_json_text "Sure! \x7b\"name\": \"Bo\"\x7d and also \x7b\"extra\": 1\x7d".data =
      some ("\x7b\"name\": \"Bo\"\x7d".data) :=
  ⟨by decide,
    c6_first_balanced_block
      "Sure! \x7b\"name\": \"Bo\"\x7d and also \x7b\"extra\": 1\x7d".data
      "Sure! ".data "\x7b\"name\": \"Bo\"\x7d".data " and also ".data
      "\x7b\"extra\": 1\x7d".data []
      (by decide) (by decide) (by decide) (by decide) (by decide) (by decide)
      (by decide) (by decide) (by decide)⟩
